import Mathlib

/-!
Shallow embedding of the multipart/form-data parsing core of `src/app.py`
(functions `get_header_opt` and `parse_multipart`).

Modelling conventions:
* A byte is a `Nat` (value of the byte); a byte string (Python `bytes` or,
  for the ASCII header data handled here, `str`) is `Bytes := List Nat`.
  `.encode("utf-8")` / `.decode("utf-8")` are identities under this
  representation (exact for the ASCII data all delimiter tokens and header
  lines in this development consist of).
* The request body stream is the finite list of byte strings that successive
  `readline()` calls return before end-of-stream.  After end-of-stream a
  Python file object returns `b""` from every further `readline()`; none of
  the loop exit conditions of `parse_multipart` can be satisfied by `b""`
  (proved below as `step_empty_line`), so reaching the end of the list with
  a loop still running means the Python code loops forever.  The model
  returns `Outcome.diverge` in that case.
* The temporary file used as a byte buffer is modelled as its byte contents
  plus the current file position (`Buf`).  `seek(-2, 2)` on a buffer holding
  fewer than 2 bytes would move to a negative offset, which raises `OSError`
  for a real file; the model returns `none` there and the whole decode ends
  in `Outcome.oserror`.
-/

namespace PyFile

abbrev Bytes := List Nat

/-- Byte string of an ASCII Lean string (each char code is its single
UTF-8 byte; every literal used in this development is ASCII). -/
def strBytes (s : String) : Bytes := s.data.map Char.toNat

/-- ASCII whitespace test: the byte values matched by the regex class
`\s` and stripped by `str.strip` / `bytes.rstrip` on ASCII data. -/
def isSpaceB (b : Nat) : Bool :=
  b == 32 || b == 9 || b == 10 || b == 13 || b == 11 || b == 12

/-- Model of `bytes.rstrip()` / `str.rstrip()` on ASCII data. -/
def rstripB (s : Bytes) : Bytes := (s.reverse.dropWhile isSpaceB).reverse

/-- Model of `str.strip()` on ASCII data. -/
def stripB (s : Bytes) : Bytes := rstripB (s.dropWhile isSpaceB)

/-- The byte values excluded by the regex character class `[^\s";]`. -/
def excludedB (b : Nat) : Bool := isSpaceB b || b == 34 || b == 59

/-- Result of a successful regex match of
`key=([^\s";]+)|key="([^"]+)"`: which alternative matched and
the text captured by its group. -/
inductive HMatch where
  | unquoted (a : Bytes)
  | quoted (b : Bytes)
deriving DecidableEq

/-- Attempt to match the regex `key=([^\s";]+)|key="([^"]+)"` at the start
of `s`, alternatives tried left to right exactly as Python `re` does.
The interpolated `key` is treated as literal text, which coincides with the
Python f-string pattern for every key free of regex metacharacters (the
program only uses `boundary`, `name` and `filename`). -/
def matchHere (key s : Bytes) : Option HMatch :=
  if (key ++ [61]).isPrefixOf s then
    let rest := s.drop (key.length + 1)
    let run := rest.takeWhile (fun b => !excludedB b)
    if run.isEmpty then
      match rest with
      | q0 :: rest2 =>
          if q0 = 34 then
            let q := rest2.takeWhile (fun b => b != 34)
            if q.isEmpty then none
            else if (rest2.drop q.length).head? = some 34 then some (.quoted q)
            else none
          else none
      | [] => none
    else some (.unquoted run)
  else none

/-- Model of `re.search` for the pattern above: try each start position
from the left, first match wins. -/
def reSearch (key : Bytes) : Bytes → Option HMatch
  | [] => matchHere key []
  | s@(_ :: t) =>
      match matchHere key s with
      | some m => some m
      | none => reSearch key t

/-- Model of `get_header_opt` (src/app.py lines 113-125): regex search for
a quoted or unquoted header parameter; the unquoted capture is returned
as is, the quoted capture is returned stripped, a missing parameter
yields the empty string. -/
def get_header_opt (key header : Bytes) : Bytes :=
  match reSearch key header with
  | none => []
  | some (.unquoted a) => a
  | some (.quoted b) => stripB b

/-- The temporary file used as a byte buffer: its contents and the current
file position. -/
structure Buf where
  data : Bytes
  pos : Nat
deriving DecidableEq

/-- `tempfile.TemporaryFile` starts empty with position 0. -/
def Buf.emptyBuf : Buf := ⟨[], 0⟩

/-- File `write` at the current position: overwrites bytes
`pos .. pos + line.length` and advances the position.  Inside
`parse_multipart` the position always equals the length of the data, so
every write in fact appends. -/
def Buf.write (b : Buf) (line : Bytes) : Buf :=
  ⟨b.data.take b.pos ++ line ++ b.data.drop (b.pos + line.length),
   b.pos + line.length⟩

/-- `buf.seek(-2, 2)`: move to two bytes before end of file.  For a real
file a negative resulting offset raises `OSError`; model that as `none`. -/
def Buf.seekEndMinus2 (b : Buf) : Option Buf :=
  if 2 ≤ b.data.length then some ⟨b.data, b.data.length - 2⟩ else none

/-- `buf.truncate()`: cut the file at the current position. -/
def Buf.truncateHere (b : Buf) : Buf := ⟨b.data.take b.pos, b.pos⟩

/-- The sealing step of `parse_multipart` (lines 181-182):
`buf.seek(-2, 2)` followed by `buf.truncate()`. -/
def sealBuf (b : Buf) : Option Buf := b.seekEndMinus2.map Buf.truncateHere

/-- One entry of the `multipart_form_data` list built by `parse_multipart`:
the dict `{"form_name": ..., "filename": ..., "buf": ...}`. -/
structure Part where
  form_name : Bytes
  filename : Bytes
  buf : Buf
deriving DecidableEq

/-- Control state of `parse_multipart` between two `readline()` calls.
Each constructor corresponds to one of the four `while True` loops of
src/app.py lines 139-183 (and to the four states named by the spec):
looking for the first separator (line 140), looking for the next
`Content-Disposition` line (line 145), skipping the remaining part
headers (line 158), accumulating the part body (line 164). -/
inductive MState where
  | seekSep
  | seekDisp (acc : List Part)
  | skipHdrs (acc : List Part) (form_name filename : Bytes)
  | inBody (acc : List Part) (form_name filename : Bytes) (buf : Buf)
deriving DecidableEq

/-- How an invocation of `parse_multipart` can end: a returned list of
parts, an infinite loop after end-of-stream (every loop keeps reading
`b""` forever, see `step_empty_line`), or the `OSError` raised by
`buf.seek(-2, 2)` on a buffer holding fewer than two bytes. -/
inductive Outcome where
  | ok (parts : List Part)
  | diverge
  | oserror
deriving DecidableEq

/-- Result of consuming one line: keep looping in a (possibly new) state,
or leave `parse_multipart` with an outcome. -/
inductive StepRes where
  | next (st : MState)
  | done (o : Outcome)
deriving DecidableEq

/-- `separator = f"--{boundary}\r\n".encode("utf-8")` (line 134). -/
def separatorOf (boundary : Bytes) : Bytes := strBytes "--" ++ boundary ++ strBytes "\r\n"

/-- `terminator = f"--{boundary}--\r\n".encode("utf-8")` (line 135). -/
def terminatorOf (boundary : Bytes) : Bytes := strBytes "--" ++ boundary ++ strBytes "--\r\n"

/-- The prefix tested by `line.startswith(b"Content-Disposition:")`. -/
def dispMarker : Bytes := strBytes "Content-Disposition:"

/-- The blank line ending the part headers. -/
def crlfLine : Bytes := strBytes "\r\n"

/-- One iteration of whichever `while True` loop of `parse_multipart` is
running: consume the line returned by `readline()` and continue or finish.
The body state mirrors lines 164-183: a line equal to the terminator
breaks the loop, appends the part and seals its buffer (`seek(-2, 2)` /
`truncate`, where a too-short buffer raises); a line equal to the
separator breaks the loop and appends the part unsealed; any other line is
written verbatim to the buffer. -/
def step (sep term : Bytes) : MState → Bytes → StepRes
  | .seekSep, l =>
      if l = sep then .next (.seekDisp []) else .next .seekSep
  | .seekDisp acc, l =>
      if dispMarker.isPrefixOf l then
        let header := rstripB l
        .next (.skipHdrs acc (get_header_opt (strBytes "name") header)
                            (get_header_opt (strBytes "filename") header))
      else .next (.seekDisp acc)
  | .skipHdrs acc n f, l =>
      if l = crlfLine then .next (.inBody acc n f Buf.emptyBuf)
      else .next (.skipHdrs acc n f)
  | .inBody acc n f buf, l =>
      if l = term then
        match sealBuf buf with
        | none => .done .oserror
        | some b2 => .done (.ok (acc ++ [⟨n, f, b2⟩]))
      else if l = sep then .next (.seekDisp (acc ++ [⟨n, f, buf⟩]))
      else .next (.inBody acc n f (buf.write l))

/-- Run the state machine over the finite list of lines the stream yields
before end-of-stream.  An exhausted stream means every further
`readline()` returns `b""`, which never satisfies a loop exit condition
(`step_empty_line` below), so the Python code loops forever: `diverge`. -/
def run (sep term : Bytes) : MState → List Bytes → Outcome
  | _, [] => .diverge
  | st, l :: rest =>
      match step sep term st l with
      | .next st2 => run sep term st2 rest
      | .done o => o

/-- Model of `parse_multipart` (src/app.py lines 128-186) applied to the
`Content-Type` header value and the request body stream. -/
def parse_multipart (contentType : Bytes) (reqBody : List Bytes) : Outcome :=
  let boundary := get_header_opt (strBytes "boundary") contentType
  run (separatorOf boundary) (terminatorOf boundary) .seekSep reqBody

/-! ### Well-formed multipart bodies and their expected decode -/

/-- Fold of `buf.write` over a list of lines, one per loop iteration of
the body accumulation loop. -/
def writeAll (buf : Buf) (ls : List Bytes) : Buf := ls.foldl Buf.write buf

/-- Source description of one part of a well-formed multipart body: its
`Content-Disposition` line, any further header lines, and the lines of
its body (each line as `readline` will return it). -/
structure RawPart where
  disp : Bytes
  hdrs : List Bytes
  bodyLines : List Bytes

/-- The lines a part contributes to the wire body, between its preceding
delimiter line and the delimiter line that ends it. -/
def encodePart (p : RawPart) : List Bytes := p.disp :: (p.hdrs ++ crlfLine :: p.bodyLines)

/-- The wire lines after the first separator: the parts joined by
separator lines and closed by the terminator line. -/
def encodeRest (sep term : Bytes) : List RawPart → List Bytes
  | [] => [term]
  | [p] => encodePart p ++ [term]
  | p :: q :: ps => encodePart p ++ sep :: encodeRest sep term (q :: ps)

/-- A full well-formed multipart body for boundary `b`. -/
def encodeMultipart (b : Bytes) (ps : List RawPart) : List Bytes :=
  separatorOf b :: encodeRest (separatorOf b) (terminatorOf b) ps

/-- The `form_name` the decoder extracts for a part. -/
def partNameOf (p : RawPart) : Bytes := get_header_opt (strBytes "name") (rstripB p.disp)

/-- The `filename` the decoder extracts for a part. -/
def partFileOf (p : RawPart) : Bytes := get_header_opt (strBytes "filename") (rstripB p.disp)

/-- All body bytes of a part as written to its buffer. -/
def rawContent (p : RawPart) : Bytes := p.bodyLines.flatten

/-- The part as the decoder returns it when its body ended at a separator
line: buffer unsealed, position at end of data. -/
def unsealedPartOf (p : RawPart) : Part :=
  ⟨partNameOf p, partFileOf p, ⟨rawContent p, (rawContent p).length⟩⟩

/-- The part as the decoder returns it when its body ended at the
terminator line: last two bytes truncated, position at the new end. -/
def sealedPartOf (p : RawPart) : Part :=
  ⟨partNameOf p, partFileOf p,
   ⟨(rawContent p).take ((rawContent p).length - 2), (rawContent p).length - 2⟩⟩

/-- The part list `parse_multipart` builds from a well-formed body: one
part per input part in order, all but the last unsealed. -/
def expectedOut : List RawPart → List Part
  | [] => []
  | [p] => [sealedPartOf p]
  | p :: q :: ps => unsealedPartOf p :: expectedOut (q :: ps)

/-- Helper for `splitLines`: accumulate the current (reversed) line. -/
def splitLinesGo (cur : Bytes) : Bytes → List Bytes
  | [] => if cur = [] then [] else [cur.reverse]
  | b :: rest =>
      if b = 10 then (cur.reverse ++ [10]) :: splitLinesGo [] rest
      else splitLinesGo (b :: cur) rest

/-- Split a byte string into the lines successive `readline()` calls
return: each line ends at a newline byte (included); a final fragment
without a newline is returned as the last line. -/
def splitLines (s : Bytes) : List Bytes := splitLinesGo [] s

/-- Invariant of the decoder loops: every buffer built so far has its
file position at the end of its data (every write happened at the end). -/
def stInv : MState → Prop
  | .seekSep => True
  | .seekDisp acc => ∀ p ∈ acc, p.buf.pos = p.buf.data.length
  | .skipHdrs acc _ _ => ∀ p ∈ acc, p.buf.pos = p.buf.data.length
  | .inBody acc _ _ buf =>
      (∀ p ∈ acc, p.buf.pos = p.buf.data.length) ∧ buf.pos = buf.data.length

/-- Content-Type header of the concrete demonstration requests. -/
def ctXYZ : Bytes := strBytes "multipart/form-data; boundary=XYZ"

/-- Boundary of the concrete demonstration requests. -/
def bXYZ : Bytes := strBytes "XYZ"

/-- A text field disposition line. -/
def dispText : Bytes := strBytes "Content-Disposition: form-data; name=\"text\"\r\n"

/-- A file disposition line, field `files`, filename `a.txt`. -/
def dispFilesA : Bytes := strBytes "Content-Disposition: form-data; name=\"files\"; filename=\"a.txt\"\r\n"

/-- A file disposition line, field `files`, filename `b.txt`. -/
def dispFilesB : Bytes := strBytes "Content-Disposition: form-data; name=\"files\"; filename=\"b.txt\"\r\n"

/-- Two file parts sharing the field name `files`. -/
def psDemo : List RawPart :=
  [⟨dispFilesA, [], [strBytes "AAA\r\n"]⟩, ⟨dispFilesB, [], [strBytes "BBB\r\n"]⟩]

/-- Justification of the `diverge` reading of an exhausted stream: an
empty line (`b""`, what `readline` returns at end-of-stream) leaves every
state exactly where it was, so the loops spin forever. -/
theorem step_empty_line (boundary : Bytes) (st : MState) :
    step (separatorOf boundary) (terminatorOf boundary) st [] = .next st := by
  cases st with
  | seekSep => simp [step, separatorOf, strBytes]
  | seekDisp acc => simp [step, dispMarker, strBytes, List.isPrefixOf]
  | skipHdrs acc n f => simp [step, crlfLine, strBytes]
  | inBody acc n f buf =>
      simp [step, separatorOf, terminatorOf, strBytes, Buf.write,
        List.take_append_drop]

theorem strBytes_dashdash : strBytes "--" = [45, 45] := by decide

theorem strBytes_crlf : strBytes "\r\n" = [13, 10] := by decide

theorem crlfLine_eq : crlfLine = [13, 10] := by decide

theorem strBytes_ddcrlf : strBytes "--\r\n" = [45, 45, 13, 10] := by decide

theorem sep_ne_term (b : Bytes) : separatorOf b ≠ terminatorOf b := by
  intro h
  have h2 := congrArg List.length h
  simp [separatorOf, terminatorOf, strBytes_dashdash, strBytes_crlf,
    strBytes_ddcrlf] at h2

theorem Buf.write_atEnd (d l : Bytes) :
    Buf.write ⟨d, d.length⟩ l = ⟨d ++ l, (d ++ l).length⟩ := by
  simp [Buf.write]

theorem writeAll_atEnd (ls : List Bytes) (d : Bytes) :
    writeAll ⟨d, d.length⟩ ls = ⟨d ++ ls.flatten, (d ++ ls.flatten).length⟩ := by
  induction ls generalizing d with
  | nil => simp [writeAll]
  | cons l ls ih =>
      have : writeAll ⟨d, d.length⟩ (l :: ls) = writeAll ⟨d ++ l, (d ++ l).length⟩ ls := by
        simp [writeAll, Buf.write_atEnd]
      rw [this, ih]
      simp

theorem run_skipHdrs (sep term : Bytes) (acc : List Part) (n f : Bytes)
    (hdrs rest : List Bytes) (hh : ∀ x ∈ hdrs, x ≠ crlfLine) :
    run sep term (.skipHdrs acc n f) (hdrs ++ rest)
      = run sep term (.skipHdrs acc n f) rest := by
  induction hdrs with
  | nil => simp
  | cons x xs ih =>
      have hx : x ≠ crlfLine := hh x (by simp)
      have := ih (fun y hy => hh y (by simp [hy]))
      simpa [run, step, hx] using this

theorem run_inBody_accum (sep term : Bytes) (acc : List Part) (n f : Bytes)
    (ls rest : List Bytes) (buf : Buf)
    (hb : ∀ l ∈ ls, l ≠ sep ∧ l ≠ term) :
    run sep term (.inBody acc n f buf) (ls ++ rest)
      = run sep term (.inBody acc n f (writeAll buf ls)) rest := by
  induction ls generalizing buf with
  | nil => simp [writeAll]
  | cons l ls ih =>
      have hl := hb l (by simp)
      have := ih (buf.write l) (fun y hy => hb y (by simp [hy]))
      simpa [run, step, hl.1, hl.2, writeAll] using this

theorem run_onePart (sep term : Bytes) (acc : List Part) (p : RawPart)
    (rest : List Bytes)
    (hd : dispMarker.isPrefixOf p.disp = true)
    (hh : ∀ x ∈ p.hdrs, x ≠ crlfLine)
    (hb : ∀ l ∈ p.bodyLines, l ≠ sep ∧ l ≠ term) :
    run sep term (.seekDisp acc) (encodePart p ++ rest)
      = run sep term
          (.inBody acc (partNameOf p) (partFileOf p)
            ⟨rawContent p, (rawContent p).length⟩) rest := by
  have h1 : encodePart p ++ rest
      = p.disp :: (p.hdrs ++ (crlfLine :: (p.bodyLines ++ rest))) := by
    simp [encodePart]
  rw [h1]
  have h2 : run sep term (.seekDisp acc)
        (p.disp :: (p.hdrs ++ (crlfLine :: (p.bodyLines ++ rest))))
      = run sep term (.skipHdrs acc (partNameOf p) (partFileOf p))
          (p.hdrs ++ (crlfLine :: (p.bodyLines ++ rest))) := by
    simp [run, step, hd, partNameOf, partFileOf]
  rw [h2, run_skipHdrs sep term acc _ _ p.hdrs _ hh]
  have h3 : run sep term (.skipHdrs acc (partNameOf p) (partFileOf p))
        (crlfLine :: (p.bodyLines ++ rest))
      = run sep term (.inBody acc (partNameOf p) (partFileOf p) Buf.emptyBuf)
          (p.bodyLines ++ rest) := by
    simp [run, step]
  rw [h3, run_inBody_accum sep term acc _ _ p.bodyLines rest _ hb]
  have h4 : (Buf.emptyBuf : Buf) = ⟨[], ([] : Bytes).length⟩ := rfl
  rw [h4, writeAll_atEnd]
  simp [rawContent]

theorem run_inBody_term (sep term : Bytes) (acc : List Part) (n f : Bytes)
    (buf : Buf) (rest : List Bytes) :
    run sep term (.inBody acc n f buf) (term :: rest)
      = if 2 ≤ buf.data.length then
          .ok (acc ++ [⟨n, f, ⟨buf.data.take (buf.data.length - 2),
                               buf.data.length - 2⟩⟩])
        else .oserror := by
  by_cases h : 2 ≤ buf.data.length <;>
    simp [run, step, sealBuf, Buf.seekEndMinus2, Buf.truncateHere, h]

theorem run_inBody_sep (sep term : Bytes) (hst : sep ≠ term)
    (acc : List Part) (n f : Bytes) (buf : Buf) (rest : List Bytes) :
    run sep term (.inBody acc n f buf) (sep :: rest)
      = run sep term (.seekDisp (acc ++ [⟨n, f, buf⟩])) rest := by
  simp [run, step, hst]

theorem run_encodeRest (b : Bytes) (ps : List RawPart) (acc : List Part)
    (hne : ps ≠ [])
    (hd : ∀ p ∈ ps, dispMarker.isPrefixOf p.disp = true)
    (hh : ∀ p ∈ ps, ∀ x ∈ p.hdrs, x ≠ crlfLine)
    (hb : ∀ p ∈ ps, ∀ l ∈ p.bodyLines, l ≠ separatorOf b ∧ l ≠ terminatorOf b)
    (hlen : ∀ p ∈ ps, 2 ≤ (rawContent p).length) :
    run (separatorOf b) (terminatorOf b) (.seekDisp acc)
        (encodeRest (separatorOf b) (terminatorOf b) ps)
      = .ok (acc ++ expectedOut ps) := by
  induction ps generalizing acc with
  | nil => exact absurd rfl hne
  | cons p tail ih =>
      cases tail with
      | nil =>
          have h1 : encodeRest (separatorOf b) (terminatorOf b) [p]
              = encodePart p ++ [terminatorOf b] := rfl
          rw [h1, run_onePart _ _ _ _ _ (hd p (by simp)) (hh p (by simp))
                (hb p (by simp)),
              run_inBody_term]
          simp [hlen p (by simp), expectedOut, sealedPartOf]
      | cons q qs =>
          have h1 : encodeRest (separatorOf b) (terminatorOf b) (p :: q :: qs)
              = encodePart p
                ++ separatorOf b :: encodeRest (separatorOf b) (terminatorOf b) (q :: qs) := rfl
          rw [h1, run_onePart _ _ _ _ _ (hd p (by simp)) (hh p (by simp))
                (hb p (by simp)),
              run_inBody_sep _ _ (sep_ne_term b)]
          have h2 := ih (acc ++ [unsealedPartOf p]) (by simp)
            (fun x hx => hd x (by simp [hx]))
            (fun x hx => hh x (by simp [hx]))
            (fun x hx => hb x (by simp [hx]))
            (fun x hx => hlen x (by simp [hx]))
          have h3 : (⟨partNameOf p, partFileOf p,
              ⟨rawContent p, (rawContent p).length⟩⟩ : Part) = unsealedPartOf p := rfl
          rw [h3, h2]
          simp [expectedOut]

theorem expectedOut_length (ps : List RawPart) :
    (expectedOut ps).length = ps.length := by
  induction ps with
  | nil => rfl
  | cons p tail ih =>
      cases tail with
      | nil => rfl
      | cons q qs => simpa [expectedOut] using ih

theorem splitLinesGo_flatten (s cur : Bytes) :
    (splitLinesGo cur s).flatten = cur.reverse ++ s := by
  induction s generalizing cur with
  | nil => by_cases h : cur = [] <;> simp [splitLinesGo, h]
  | cons b rest ih =>
      by_cases h : b = 10
      · subst h
        simp [splitLinesGo, ih []]
      · simp [splitLinesGo, h, ih (b :: cur)]

theorem splitLines_flatten (s : Bytes) : (splitLines s).flatten = s := by
  simpa using splitLinesGo_flatten s []

theorem takeWhile_all {p : Nat → Bool} (v : Bytes) (h : ∀ a ∈ v, p a = true) :
    v.takeWhile p = v := by
  induction v with
  | nil => rfl
  | cons a t ih =>
      simp [List.takeWhile_cons, h a (by simp)]
      exact fun x hx => h x (by simp [hx])

theorem takeWhile_append_stop {p : Nat → Bool} (v : Bytes) (x : Nat) (s : Bytes)
    (h : ∀ a ∈ v, p a = true) (hx : p x = false) :
    (v ++ x :: s).takeWhile p = v := by
  induction v with
  | nil => simp [List.takeWhile_cons, hx]
  | cons a t ih =>
      simp [List.takeWhile_cons, h a (by simp)]
      exact ih (fun y hy => h y (by simp [hy]))

theorem matchHere_nil (key : Bytes) : matchHere key [] = none := by
  have h : (key ++ [61]).isPrefixOf ([] : Bytes) = false := by
    cases hk : key ++ [61] with
    | nil => exact absurd (congrArg List.length hk) (by simp)
    | cons c cs => rfl
  simp [matchHere, h]

theorem matchHere_some_start (key s : Bytes) (m : HMatch)
    (h : matchHere key s = some m) : (key ++ [61]) <+: s := by
  by_cases hg : (key ++ [61]).isPrefixOf s
  · exact List.isPrefixOf_iff_prefix.mp hg
  · simp [matchHere, hg] at h

theorem reSearch_eq_none (key header : Bytes)
    (h : ¬ ((key ++ [61]) <:+: header)) : reSearch key header = none := by
  induction header with
  | nil => simpa [reSearch] using matchHere_nil key
  | cons c t ih =>
      rw [List.infix_cons_iff] at h
      push_neg at h
      have hm : matchHere key (c :: t) = none := by
        cases hmm : matchHere key (c :: t) with
        | none => rfl
        | some m => exact absurd (matchHere_some_start key _ m hmm) h.1
      simp [reSearch, hm, ih h.2]

theorem reSearch_of_matchHere (key s : Bytes) (m : HMatch)
    (h : matchHere key s = some m) : reSearch key s = some m := by
  cases s with
  | nil => simpa [reSearch] using h
  | cons c t => simp [reSearch, h]

theorem matchHere_quoted (key v suffix : Bytes) (hv : v ≠ [])
    (hq : ∀ c ∈ v, c ≠ 34) :
    matchHere key ((key ++ [61]) ++ 34 :: (v ++ 34 :: suffix)) = some (.quoted v) := by
  have hpfx : (key ++ [61]).isPrefixOf ((key ++ [61]) ++ 34 :: (v ++ 34 :: suffix)) = true :=
    List.isPrefixOf_iff_prefix.mpr ⟨_, rfl⟩
  have hlen : (key ++ [61]).length = key.length + 1 := by simp
  have hdrop : ((key ++ [61]) ++ 34 :: (v ++ 34 :: suffix)).drop (key.length + 1)
      = 34 :: (v ++ 34 :: suffix) := by
    rw [← hlen, List.drop_left]
  have hq' : ∀ c ∈ v, (c != 34) = true := by
    intro c hc
    simpa using hq c hc
  have htake : (v ++ 34 :: suffix).takeWhile (fun b => b != 34) = v :=
    takeWhile_append_stop v 34 suffix hq' (by simp)
  have hdrop2 : (v ++ 34 :: suffix).drop v.length = 34 :: suffix := List.drop_left v _
  have hvE : v.isEmpty = false := by
    cases v with
    | nil => exact absurd rfl hv
    | cons a t => rfl
  have htw0 : (34 :: (v ++ 34 :: suffix)).takeWhile (fun b => !excludedB b) = [] := rfl
  simp [matchHere, hpfx, hdrop, htw0, htake, hdrop2, hvE]

theorem matchHere_unquoted (key v suffix : Bytes) (hv : v ≠ [])
    (hall : ∀ c ∈ v, excludedB c = false)
    (hsuf : suffix = [] ∨ ∃ c s2, suffix = c :: s2 ∧ excludedB c = true) :
    matchHere key ((key ++ [61]) ++ (v ++ suffix)) = some (.unquoted v) := by
  have hpfx : (key ++ [61]).isPrefixOf ((key ++ [61]) ++ (v ++ suffix)) = true :=
    List.isPrefixOf_iff_prefix.mpr ⟨_, rfl⟩
  have hlen : (key ++ [61]).length = key.length + 1 := by simp
  have hdrop : ((key ++ [61]) ++ (v ++ suffix)).drop (key.length + 1) = v ++ suffix := by
    rw [← hlen, List.drop_left]
  have hall' : ∀ c ∈ v, (!excludedB c) = true := by
    intro c hc
    simp [hall c hc]
  have htake : (v ++ suffix).takeWhile (fun b => !excludedB b) = v := by
    rcases hsuf with h0 | ⟨c, s2, hs, hc⟩
    · subst h0
      simpa using takeWhile_all v hall'
    · subst hs
      exact takeWhile_append_stop v c s2 hall' (by simp [hc])
  have hvE : v.isEmpty = false := by
    cases v with
    | nil => exact absurd rfl hv
    | cons a t => rfl
  simp [matchHere, hpfx, hdrop, htake, hvE]

theorem run_diverge_of_no_term (sep term : Bytes) (st : MState)
    (stream : List Bytes) (h : ∀ l ∈ stream, l ≠ term) :
    run sep term st stream = .diverge := by
  induction stream generalizing st with
  | nil => rfl
  | cons l rest ih =>
      have hl : l ≠ term := h l (by simp)
      have hrest : ∀ x ∈ rest, x ≠ term := fun x hx => h x (by simp [hx])
      cases st with
      | seekSep =>
          by_cases hs : l = sep
          · simp [run, step, hs]
            exact ih _ hrest
          · simp [run, step, hs]
            exact ih _ hrest
      | seekDisp acc =>
          by_cases hs : dispMarker.isPrefixOf l
          · simp [run, step, hs]
            exact ih _ hrest
          · simp [run, step, hs]
            exact ih _ hrest
      | skipHdrs acc n f =>
          by_cases hs : l = crlfLine
          · simp [run, step, hs]
            exact ih _ hrest
          · simp [run, step, hs]
            exact ih _ hrest
      | inBody acc n f buf =>
          by_cases hs : l = sep
          · subst hs
            simp [run, step, hl]
            exact ih _ hrest
          · simp [run, step, hs, hl]
            exact ih _ hrest

theorem stInv_step_next (sep term : Bytes) (st : MState) (l : Bytes)
    (st2 : MState) (h : stInv st) (hs : step sep term st l = .next st2) :
    stInv st2 := by
  cases st with
  | seekSep =>
      by_cases hc : l = sep
      · simp [step, hc] at hs
        subst hs
        simp [stInv]
      · simp [step, hc] at hs
        subst hs
        simp [stInv]
  | seekDisp acc =>
      by_cases hc : dispMarker.isPrefixOf l
      · simp [step, hc] at hs
        subst hs
        exact h
      · simp [step, hc] at hs
        subst hs
        exact h
  | skipHdrs acc n f =>
      by_cases hc : l = crlfLine
      · simp [step, hc] at hs
        subst hs
        exact ⟨h, rfl⟩
      · simp [step, hc] at hs
        subst hs
        exact h
  | inBody acc n f buf =>
      by_cases ht : l = term
      · simp [step, ht] at hs
        cases hsb : sealBuf buf <;> simp [hsb] at hs
      · by_cases hc : l = sep
        · have hst : sep ≠ term := hc ▸ ht
          subst hc
          simp [step, hst] at hs
          subst hs
          intro p hp
          rcases List.mem_append.mp hp with h1 | h1
          · exact h.1 p h1
          · have hp2 : p = ⟨n, f, buf⟩ := by simpa using h1
            subst hp2
            exact h.2
        · simp [step, ht, hc] at hs
          subst hs
          refine ⟨h.1, ?_⟩
          simp [Buf.write, h.2]

theorem stInv_step_done (sep term : Bytes) (st : MState) (l : Bytes)
    (parts : List Part) (h : stInv st)
    (hs : step sep term st l = .done (.ok parts)) :
    ∀ p ∈ parts, p.buf.pos = p.buf.data.length := by
  cases st with
  | seekSep =>
      by_cases hc : l = sep
      · simp [step, hc] at hs
      · simp [step, hc] at hs
  | seekDisp acc =>
      by_cases hc : dispMarker.isPrefixOf l
      · simp [step, hc] at hs
      · simp [step, hc] at hs
  | skipHdrs acc n f =>
      by_cases hc : l = crlfLine
      · simp [step, hc] at hs
      · simp [step, hc] at hs
  | inBody acc n f buf =>
      by_cases ht : l = term
      · simp [step, ht] at hs
        cases hsb : sealBuf buf with
        | none => simp [hsb] at hs
        | some b2 =>
            simp [hsb] at hs
            subst hs
            intro p hp
            rcases List.mem_append.mp hp with h1 | h1
            · exact h.1 p h1
            · have hp2 : p = ⟨n, f, b2⟩ := by simpa using h1
              subst hp2
              have hseal : b2 = ⟨buf.data.take (buf.data.length - 2),
                  buf.data.length - 2⟩ ∧ 2 ≤ buf.data.length := by
                by_cases h2 : 2 ≤ buf.data.length <;>
                  simp [sealBuf, Buf.seekEndMinus2, Buf.truncateHere, h2] at hsb
                exact ⟨hsb.symm, h2⟩
              rw [hseal.1]
              simp
      · by_cases hc : l = sep
        · have hst : sep ≠ term := hc ▸ ht
          subst hc
          simp [step, hst] at hs
        · simp [step, ht, hc] at hs

theorem run_ok_inv (sep term : Bytes) (st : MState) (stream : List Bytes)
    (parts : List Part) (h : stInv st) (hr : run sep term st stream = .ok parts) :
    ∀ p ∈ parts, p.buf.pos = p.buf.data.length := by
  induction stream generalizing st with
  | nil => simp [run] at hr
  | cons l rest ih =>
      cases hstep : step sep term st l with
      | next st2 =>
          have : run sep term st2 rest = .ok parts := by
            simpa [run, hstep] using hr
          exact ih _ (stInv_step_next sep term st l st2 h hstep) this
      | done o =>
          have ho : o = .ok parts := by simpa [run, hstep] using hr
          subst ho
          exact stInv_step_done sep term st l parts h hstep

/-! ### Claims -/

/-- Claim C1 (code bug): the claim states that every decoded part has the
CRLF preceding its delimiter line removed, for separator-sealed and
terminator-sealed parts alike.  The code only performs the
seek/truncate trim inside the `if line == terminator` branch, so a part
whose body ends at a separator keeps its trailing CRLF: in this two-part
decode the first part ends as the bytes of `A\r\n`, with the CRLF still
present, while only the second (terminator-sealed) part is trimmed. -/
theorem claim_C1 :
    parse_multipart ctXYZ
        [separatorOf bXYZ, dispFilesA, crlfLine, strBytes "A\r\n",
         separatorOf bXYZ, dispFilesB, crlfLine, strBytes "B\r\n",
         terminatorOf bXYZ]
      = .ok [⟨strBytes "files", strBytes "a.txt", ⟨strBytes "A\r\n", 3⟩⟩,
             ⟨strBytes "files", strBytes "b.txt", ⟨strBytes "B", 1⟩⟩]
    ∧ crlfLine.isSuffixOf (strBytes "A\r\n") = true := by decide

/-- Claim C2 (code bug): the claim states that a stream on which the
terminator never arrives makes the decode fail with a malformed-body
error and no parts.  In the code every loop keeps calling `readline()`
with no end-of-stream check, and `b""` satisfies no loop exit condition,
so the code hangs instead of failing: for every content type and every
finite stream containing no line equal to the computed terminator token,
the outcome is divergence, not an error return. -/
theorem claim_C2 (ct : Bytes) (stream : List Bytes)
    (h : ∀ l ∈ stream, l ≠ terminatorOf (get_header_opt (strBytes "boundary") ct)) :
    parse_multipart ct stream = .diverge :=
  run_diverge_of_no_term _ _ _ stream h

/-- Witness for C2: a request truncated after one body line (client
disconnect before the terminator) makes the decoder loop forever. -/
theorem claim_C2_witness :
    parse_multipart ctXYZ
        [separatorOf bXYZ, dispText, crlfLine, strBytes "hello\r\n"] = .diverge :=
  claim_C2 ctXYZ _ (by decide)

/-- Claim C3 (code bug): the claim states that a `Content-Type` without a
usable boundary fails immediately with a Malformed-Boundary error and
decoding never proceeds.  The code never validates the boundary: with no
boundary parameter `get_header_opt` returns the empty string, the
delimiter tokens become `--\r\n` and `----\r\n`, and decoding proceeds —
here it even returns a decoded part. -/
theorem claim_C3 :
    get_header_opt (strBytes "boundary") (strBytes "multipart/form-data") = []
    ∧ parse_multipart (strBytes "multipart/form-data")
        [strBytes "--\r\n", dispText, crlfLine, strBytes "hi\r\n", strBytes "----\r\n"]
      = .ok [⟨strBytes "text", [], ⟨strBytes "hi", 2⟩⟩] := by decide

/-- Claim C10: the extractor matches the parameter name as a raw
substring, so on a header where a `filename` parameter precedes the
`name` parameter, extracting `name` finds the `name=` inside
`filename=` and returns the filename value `a.txt` instead of the value
`x` of the actual `name` parameter. -/
theorem claim_C10 :
    get_header_opt (strBytes "name")
        (strBytes "form-data; filename=\"a.txt\"; name=\"x\"") = strBytes "a.txt"
    ∧ strBytes "a.txt" ≠ strBytes "x" := by decide

/-- Claim C4: round-trip.  For every content `C` (any byte string,
empty or binary, possibly containing CR/LF pairs), decoding the
single-part encoding of `C` — separator line, a `Content-Disposition`
line, blank line, the lines of `C` followed by CRLF, terminator line —
yields exactly one part whose buffer holds exactly `C`, provided no
encoded body line other than the delimiter lines is byte-equal to the
separator or terminator token. -/
theorem claim_C4 (b C disp : Bytes)
    (hd : dispMarker.isPrefixOf disp = true)
    (hb : ∀ l ∈ splitLines (C ++ [13, 10]),
        l ≠ separatorOf b ∧ l ≠ terminatorOf b) :
    run (separatorOf b) (terminatorOf b) .seekSep
        ([separatorOf b, disp, crlfLine] ++ splitLines (C ++ [13, 10])
          ++ [terminatorOf b])
      = .ok [⟨get_header_opt (strBytes "name") (rstripB disp),
             get_header_opt (strBytes "filename") (rstripB disp),
             ⟨C, C.length⟩⟩] := by
  have h0 : [separatorOf b, disp, crlfLine] ++ splitLines (C ++ [13, 10])
        ++ [terminatorOf b]
      = separatorOf b ::
        (encodePart ⟨disp, [], splitLines (C ++ [13, 10])⟩ ++ [terminatorOf b]) := by
    simp [encodePart]
  rw [h0]
  have h1 : run (separatorOf b) (terminatorOf b) .seekSep
        (separatorOf b ::
          (encodePart ⟨disp, [], splitLines (C ++ [13, 10])⟩ ++ [terminatorOf b]))
      = run (separatorOf b) (terminatorOf b) (.seekDisp [])
          (encodePart ⟨disp, [], splitLines (C ++ [13, 10])⟩ ++ [terminatorOf b]) := by
    simp [run, step]
  rw [h1, run_onePart _ _ _ _ _ hd (by simp) hb, run_inBody_term]
  have hrc : rawContent ⟨disp, [], splitLines (C ++ [13, 10])⟩ = C ++ [13, 10] := by
    simp [rawContent, splitLines_flatten]
  rw [hrc]
  simp [partNameOf, partFileOf, List.take_left]

/-- Witness for C4: content `hello`, boundary `XYZ`, text disposition. -/
theorem claim_C4_witness :
    run (separatorOf bXYZ) (terminatorOf bXYZ) .seekSep
        ([separatorOf bXYZ, dispText, crlfLine]
          ++ splitLines (strBytes "hello" ++ [13, 10]) ++ [terminatorOf bXYZ])
      = .ok [⟨get_header_opt (strBytes "name") (rstripB dispText),
             get_header_opt (strBytes "filename") (rstripB dispText),
             ⟨strBytes "hello", (strBytes "hello").length⟩⟩] :=
  claim_C4 bXYZ (strBytes "hello") dispText (by decide) (by decide)

/-- Claim C5: multiplicity and order.  A well-formed body with the parts
`ps` (each a `Content-Disposition` line, optional further headers, body
lines that are not delimiter tokens and end with the CRLF that precedes
the delimiter) decodes to exactly the list `expectedOut ps`: one part per
input part, in input order, with no deduplication or merging — in
particular the output length equals the number of `Content-Disposition`
parts.  Several parts may share a field name (see the witness). -/
theorem claim_C5 (ct b : Bytes) (ps : List RawPart)
    (hct : get_header_opt (strBytes "boundary") ct = b)
    (hne : ps ≠ [])
    (hd : ∀ p ∈ ps, dispMarker.isPrefixOf p.disp = true)
    (hh : ∀ p ∈ ps, ∀ x ∈ p.hdrs, x ≠ crlfLine)
    (hb : ∀ p ∈ ps, ∀ l ∈ p.bodyLines, l ≠ separatorOf b ∧ l ≠ terminatorOf b)
    (hlen : ∀ p ∈ ps, 2 ≤ (rawContent p).length) :
    parse_multipart ct (encodeMultipart b ps) = .ok (expectedOut ps)
    ∧ (expectedOut ps).length = ps.length := by
  constructor
  · have h0 : parse_multipart ct (encodeMultipart b ps)
        = run (separatorOf (get_header_opt (strBytes "boundary") ct))
            (terminatorOf (get_header_opt (strBytes "boundary") ct)) .seekSep
            (encodeMultipart b ps) := rfl
    rw [h0, hct]
    have h1 : run (separatorOf b) (terminatorOf b) .seekSep (encodeMultipart b ps)
        = run (separatorOf b) (terminatorOf b) (.seekDisp [])
            (encodeRest (separatorOf b) (terminatorOf b) ps) := by
      simp [encodeMultipart, run, step]
    rw [h1]
    simpa using run_encodeRest b ps [] hne hd hh hb hlen
  · exact expectedOut_length ps

/-- Witness for C5: two file parts that share the field name `files`
decode to two parts in order. -/
theorem claim_C5_witness :
    parse_multipart ctXYZ (encodeMultipart bXYZ psDemo) = .ok (expectedOut psDemo)
    ∧ (expectedOut psDemo).length = psDemo.length :=
  claim_C5 ctXYZ bXYZ psDemo (by decide) (by simp [psDemo]) (by decide)
    (by decide) (by decide) (by decide)

/-- Claim C6: boundary exactness.  During body accumulation a line is
appended verbatim to the current buffer if and only if it is not
byte-for-byte equal to the separator token and not byte-for-byte equal to
the terminator token; equivalently, only exact byte equality with one of
the two precomputed tokens ends the body.  A line that merely resembles a
delimiter (contains the boundary without the exact framing) is written to
the buffer. -/
theorem claim_C6 (b : Bytes) (acc : List Part) (n f : Bytes) (buf : Buf)
    (l : Bytes) :
    step (separatorOf b) (terminatorOf b) (.inBody acc n f buf) l
        = .next (.inBody acc n f (buf.write l))
      ↔ l ≠ separatorOf b ∧ l ≠ terminatorOf b := by
  constructor
  · intro h
    constructor
    · intro hl
      subst hl
      simp [step, sep_ne_term b] at h
    · intro hl
      subst hl
      simp [step] at h
      cases hsb : sealBuf buf <;> simp [hsb] at h
  · rintro ⟨h1, h2⟩
    simp [step, h1, h2]

/-- Witness for C6: a line containing the boundary `XYZ` without the
delimiter framing is appended verbatim to the buffer. -/
theorem claim_C6_witness :
    step (separatorOf bXYZ) (terminatorOf bXYZ)
        (.inBody [] (strBytes "files") [] Buf.emptyBuf) (strBytes "xx--XYZyy\r\n")
      = .next (.inBody [] (strBytes "files") []
          (Buf.emptyBuf.write (strBytes "xx--XYZyy\r\n"))) :=
  (claim_C6 bXYZ [] (strBytes "files") [] Buf.emptyBuf
    (strBytes "xx--XYZyy\r\n")).mpr (by decide)

/-- Claim C7: the Header-Field Extractor contract.  First conjunct:
when `key=` does not occur in the header, the result is the empty string
(a plain lookup, no error).  Second conjunct: for a quoted parameter
`key="v"` (any quote-free nonempty `v`, any trailing text), the result is
`v` stripped of surrounding whitespace — quotes removed, internal spaces
kept.  Third conjunct: for an unquoted parameter `key=v` (nonempty `v`
containing no whitespace, quote or semicolon, followed by the end of the
header or by a delimiter character), the result is `v` itself. -/
theorem claim_C7 :
    (∀ key header : Bytes, ¬ ((key ++ [61]) <:+: header) →
        get_header_opt key header = [])
    ∧ (∀ key v suffix : Bytes, v ≠ [] → (∀ c ∈ v, c ≠ 34) →
        get_header_opt key ((key ++ [61]) ++ 34 :: (v ++ 34 :: suffix)) = stripB v)
    ∧ (∀ key v suffix : Bytes, v ≠ [] → (∀ c ∈ v, excludedB c = false) →
        (suffix = [] ∨ ∃ c s2, suffix = c :: s2 ∧ excludedB c = true) →
        get_header_opt key ((key ++ [61]) ++ (v ++ suffix)) = v) := by
  refine ⟨?_, ?_, ?_⟩
  · intro key header h
    simp [get_header_opt, reSearch_eq_none key header h]
  · intro key v suffix hv hq
    have h := reSearch_of_matchHere _ _ _ (matchHere_quoted key v suffix hv hq)
    unfold get_header_opt
    rw [h]
  · intro key v suffix hv hall hsuf
    have h := reSearch_of_matchHere _ _ _ (matchHere_unquoted key v suffix hv hall hsuf)
    unfold get_header_opt
    rw [h]

/-- Witness for C7: the two scenarios of the specification plus a missing
parameter. -/
theorem claim_C7_witness :
    get_header_opt (strBytes "filename") (strBytes "filename=\"my file.txt\"")
        = strBytes "my file.txt"
    ∧ get_header_opt (strBytes "boundary") (strBytes "boundary=abc123")
        = strBytes "abc123"
    ∧ get_header_opt (strBytes "name") (strBytes "form-data") = [] := by
  refine ⟨?_, ?_, ?_⟩
  · have h := claim_C7.2.1 (strBytes "filename") (strBytes "my file.txt") []
      (by decide) (by decide)
    have e : strBytes "filename=\"my file.txt\""
        = (strBytes "filename" ++ [61]) ++ 34 :: (strBytes "my file.txt" ++ 34 :: []) := by
      decide
    rw [e, h]
    decide
  · have h := claim_C7.2.2 (strBytes "boundary") (strBytes "abc123") []
      (by decide) (by decide) (Or.inl rfl)
    have e : strBytes "boundary=abc123"
        = (strBytes "boundary" ++ [61]) ++ (strBytes "abc123" ++ []) := by decide
    rw [e, h]
  · exact claim_C7.1 (strBytes "name") (strBytes "form-data") (by decide)

/-- Claim C8, as stated, is false: the decoder does not reset the read
cursor of a returned buffer to offset 0.  Here a successful decode
returns a part whose buffer position is 5 (the end of its data), not 0 —
indeed the caller in `do_POST` relies on the position being at the end
(`buf.tell() == 0` detects an empty buffer) and rewinds with
`buf.seek(0)` itself before reading. -/
theorem claim_C8_counterexample :
    parse_multipart ctXYZ
        [separatorOf bXYZ, dispText, crlfLine, strBytes "hello\r\n",
         terminatorOf bXYZ]
      = .ok [⟨strBytes "text", [], ⟨strBytes "hello", 5⟩⟩]
    ∧ (Buf.mk (strBytes "hello") 5).pos ≠ 0 := by decide

/-- Claim C8 amended: every part returned by a successful decode has its
buffer position at the END of the buffer data (for separator-sealed parts
the end of the accumulated bytes; for the terminator-sealed part the end
after truncation), not at offset 0; the caller rewinds before reading. -/
theorem claim_C8_amended (ct : Bytes) (stream : List Bytes) (parts : List Part)
    (h : parse_multipart ct stream = .ok parts) :
    ∀ p ∈ parts, p.buf.pos = p.buf.data.length := by
  have h0 : run (separatorOf (get_header_opt (strBytes "boundary") ct))
      (terminatorOf (get_header_opt (strBytes "boundary") ct)) .seekSep stream
      = .ok parts := h
  exact run_ok_inv _ _ .seekSep _ _ (show stInv MState.seekSep from True.intro) h0

/-- Witness for the amended C8 at a concrete decode. -/
theorem claim_C8_witness :
    (Part.mk (strBytes "text") [] ⟨strBytes "hello", 5⟩).buf.pos
      = (Part.mk (strBytes "text") [] ⟨strBytes "hello", 5⟩).buf.data.length :=
  claim_C8_amended ctXYZ
    [separatorOf bXYZ, dispText, crlfLine, strBytes "hello\r\n", terminatorOf bXYZ]
    [⟨strBytes "text", [], ⟨strBytes "hello", 5⟩⟩] (by decide) _ (by simp)

/-- Claim C9: the sealing step is partial.  First conjunct: when the
terminator line directly follows the blank end-of-headers line (zero body
bytes written), `buf.seek(-2, 2)` runs on an empty buffer and raises, so
the decode ends in an OSError instead of returning parts.  Second
conjunct: the exact behaviour of the body loop at the terminator — the
decode completes if and only if the final buffer holds at least 2 bytes
at sealing time, and otherwise raises. -/
theorem claim_C9 (b disp : Bytes) (hdrs : List Bytes)
    (hd : dispMarker.isPrefixOf disp = true)
    (hh : ∀ x ∈ hdrs, x ≠ crlfLine) :
    run (separatorOf b) (terminatorOf b) .seekSep
        ([separatorOf b, disp] ++ hdrs ++ [crlfLine, terminatorOf b]) = .oserror
    ∧ ∀ (acc : List Part) (n f : Bytes) (buf : Buf) (rest : List Bytes),
        run (separatorOf b) (terminatorOf b) (.inBody acc n f buf)
            (terminatorOf b :: rest)
          = if 2 ≤ buf.data.length then
              .ok (acc ++ [⟨n, f, ⟨buf.data.take (buf.data.length - 2),
                                   buf.data.length - 2⟩⟩])
            else .oserror := by
  constructor
  · have h0 : [separatorOf b, disp] ++ hdrs ++ [crlfLine, terminatorOf b]
        = separatorOf b :: (encodePart ⟨disp, hdrs, []⟩ ++ [terminatorOf b]) := by
      simp [encodePart]
    rw [h0]
    have h1 : run (separatorOf b) (terminatorOf b) .seekSep
          (separatorOf b :: (encodePart ⟨disp, hdrs, []⟩ ++ [terminatorOf b]))
        = run (separatorOf b) (terminatorOf b) (.seekDisp [])
            (encodePart ⟨disp, hdrs, []⟩ ++ [terminatorOf b]) := by
      simp [run, step]
    rw [h1, run_onePart _ _ _ _ _ hd hh (by simp), run_inBody_term]
    have hrc : rawContent ⟨disp, hdrs, []⟩ = [] := rfl
    rw [hrc]
    simp
  · intro acc n f buf rest
    exact run_inBody_term _ _ _ _ _ _ _

/-- Witness for C9: empty final part body ends in an OSError; a one-byte
buffer also raises at sealing. -/
theorem claim_C9_witness :
    run (separatorOf bXYZ) (terminatorOf bXYZ) .seekSep
        ([separatorOf bXYZ, dispText] ++ [] ++ [crlfLine, terminatorOf bXYZ])
      = .oserror
    ∧ run (separatorOf bXYZ) (terminatorOf bXYZ)
        (.inBody [] (strBytes "text") [] ⟨[65], 1⟩) (terminatorOf bXYZ :: [])
      = .oserror := by
  have h := claim_C9 bXYZ dispText [] (by decide) (by simp)
  refine ⟨h.1, ?_⟩
  rw [h.2 [] (strBytes "text") [] ⟨[65], 1⟩ []]
  decide

end PyFile
